import Mathlib

/-
Verification development for the `resolvconf` Go package
(`resolvconf.go`): a resolv.conf path resolver and line-oriented parser.

Go strings are modelled as `List Char` (Unicode scalar sequences; the
file's raw bytes are the UTF-8 encoding of those scalars, computed by
`utf8Encode` below).  Machine integers are modelled as `Nat` with explicit
`% 2 ^ w` reductions where overflow matters.
-/

deriving instance DecidableEq for Except

namespace Resolvconf

/-- Model of Go `unicode.IsSpace` (the White_Space property): the ASCII
whitespace characters plus NEL, NBSP and the Unicode space separators. -/
def isSpace (c : Char) : Bool :=
  c == ' ' || c == '\t' || c == '\n' || c.toNat == 11 || c.toNat == 12 ||
  c == '\r' || c.toNat == 0x85 || c.toNat == 0xA0 || c.toNat == 0x1680 ||
  (0x2000 ≤ c.toNat && c.toNat ≤ 0x200A) || c.toNat == 0x2028 ||
  c.toNat == 0x2029 || c.toNat == 0x202F || c.toNat == 0x205F ||
  c.toNat == 0x3000

/-- Drop leading whitespace characters. -/
def trimLeft : List Char → List Char
  | [] => []
  | c :: cs => if isSpace c then trimLeft cs else c :: cs

/-- Model of Go `strings.TrimSpace`: drop leading and trailing whitespace. -/
def trimSpace (s : List Char) : List Char :=
  trimLeft (trimLeft s.reverse).reverse

/-- Model of Go `strings.HasPrefix s pat`. -/
def startsWith : List Char → List Char → Bool
  | _, [] => true
  | [], _ :: _ => false
  | c :: cs, p :: ps => c == p && startsWith cs ps

/-- Model of Go `strings.TrimPrefix s pat`: remove the leading `pat` if
present, otherwise return `s` unchanged. -/
def trimPref (s pat : List Char) : List Char :=
  if startsWith s pat then s.drop pat.length else s

/-- Model of Go `strings.Index s pat`: index of the first occurrence of the
substring `pat` in `s` (`none` stands for Go's `-1`). -/
def indexOfSub : List Char → List Char → Option Nat
  | s, pat =>
    if startsWith s pat then some 0
    else
      match s with
      | [] => none
      | _ :: cs => (indexOfSub cs pat).map (· + 1)

/-- Model of Go `strings.Split input "\n"`: the newline-separated pieces of
the input, in order; `n` newlines yield `n + 1` pieces. -/
def splitNl : List Char → List (List Char)
  | [] => [[]]
  | c :: cs =>
    if c = '\n' then [] :: splitNl cs
    else
      match splitNl cs with
      | [] => [[c]]
      | l :: ls => (c :: l) :: ls

/-- Truncate a line at the first occurrence of the comment marker
(the marker and everything after it are discarded). -/
def truncAtMark (currentLine commentMarker : List Char) : List Char :=
  match indexOfSub currentLine commentMarker with
  | some commentIndex => currentLine.take commentIndex
  | none => currentLine

/-- The comment marker constant `commentMark = "#"`. -/
def commentMark : List Char := ['#']

/-! ### Model of the Go `net` library's IP parsing (Go ≥ 1.17, netip-based)

`net.IP` is a byte slice, modelled as `List Nat` with entries `< 256`;
`net.ParseIP` always yields the 16-byte form. -/

/-- Decimal digit test, on the byte value as the Go parser does
(`s[i] >= '0' && s[i] <= '9'`; 48 and 57 are the codes of `0` and `9`). -/
def isDigit (c : Char) : Bool := 48 ≤ c.toNat && c.toNat ≤ 57

/-- Hex digit value of a byte, as in the `netip` parser's inner loop
(digit, then `a`–`f` = 97–102, then `A`–`F` = 65–70). -/
def hexVal (c : Char) : Option Nat :=
  if 48 ≤ c.toNat && c.toNat ≤ 57 then some (c.toNat - 48)
  else if 97 ≤ c.toNat && c.toNat ≤ 102 then some (c.toNat - 97 + 10)
  else if 65 ≤ c.toNat && c.toNat ≤ 70 then some (c.toNat - 65 + 10)
  else none

/-- Model of `netip.parseIPv4`'s scanning loop.  State: remaining input,
current octet value `val`, digits seen in the current octet `digLen`, and
the completed octets `fields`.  Fails (as the Go code does) on a non-digit
non-dot character, a leading zero, an octet above 255, an empty octet, a
trailing dot, or more than four octets. -/
def parseIPv4Aux : List Char → Nat → Nat → List Nat → Option (List Nat)
  | [], val, digLen, fields =>
    if digLen == 0 then none
    else if fields.length < 3 then none
    else some (fields ++ [val])
  | c :: rest, val, digLen, fields =>
    if isDigit c then
      if digLen == 1 && val == 0 then none
      else
        let val' := val * 10 + (c.toNat - 48)
        if val' > 255 then none
        else parseIPv4Aux rest val' (digLen + 1) fields
    else if c = '.' then
      if digLen == 0 then none
      else if rest = [] then none
      else if fields.length == 3 then none
      else parseIPv4Aux rest 0 0 (fields ++ [val])
    else none

/-- Model of `netip.parseIPv4`: four dotted decimal octets, each 0–255 with
no leading zeros; returns the 4 octets. -/
def parseIPv4 (s : List Char) : Option (List Nat) :=
  parseIPv4Aux s 0 0 []

/-- Read a group of hex digits at the front of the input, as the inner
loop of `netip.parseIPv6` does: accumulate into `acc`, counting digits in
`off`; fail on a fifth digit or (unreachably, given at most four digits) an
accumulator above `0xFFFF`. Returns the accumulator, the digit count and
the rest of the input. -/
def readHexGroup : List Char → Nat → Nat → Option (Nat × Nat × List Char)
  | [], acc, off => some (acc, off, [])
  | c :: rest, acc, off =>
    match hexVal c with
    | none => some (acc, off, c :: rest)
    | some d =>
      if off + 1 > 4 then none
      else if acc * 16 + d > 65535 then none
      else readHexGroup rest (acc * 16 + d) (off + 1)

/-- The post-loop phase of `netip.parseIPv6`, run once the remaining input
is empty: expand the `::` ellipsis with zero bytes when fewer than 16 bytes
were parsed (error if there was none), and reject an ellipsis that would
expand to zero fields when all 16 bytes were parsed. -/
def v6Finish (i : Nat) (ip : List Nat) (ell : Option Nat) : Option (List Nat) :=
  if i < 16 then
    match ell with
    | none => none
    | some e => some (ip.take e ++ List.replicate (16 - i) 0 ++ ip.drop e)
  else
    match ell with
    | some _ => none
    | none => some ip

/-- The main loop of `netip.parseIPv6` (`for i < 16`), followed by its
post-loop checks.  `s` is the remaining input, `i` the number of address
bytes already produced, `ip` those bytes, and `ell` the byte position of a
`::` ellipsis if one was seen.  Leftover input after the loop is rejected
("trailing garbage"); the loop's `break`s go straight to `v6Finish`.
`fuel` bounds the remaining iterations: each pass adds at least 2 to `i`
and the loop stops at `i = 16`, so the initial 8 is never exhausted. -/
def v6Loop : Nat → List Char → Nat → List Nat → Option Nat → Option (List Nat)
  | fuel, s, i, ip, ell =>
  if 16 ≤ i then
    if s ≠ [] then none
    else v6Finish i ip ell
  else
    match fuel with
    | 0 => none
    | fuel + 1 =>
    match readHexGroup s 0 0 with
    | none => none
    | some (acc, off, rest) =>
      if off == 0 then none
      else if rest.headD ' ' = '.' then
        -- trailing embedded IPv4 address
        if ell = none ∧ i ≠ 12 then none
        else if i + 4 > 16 then none
        else
          match parseIPv4 s with
          | none => none
          | some ip4 =>
            -- the loop breaks with `s = ""` and `i += 4`
            v6Finish (i + 4) (ip ++ ip4) ell
      else
        let ip' := ip ++ [acc / 256, acc % 256]
        let i' := i + 2
        if rest = [] then
          -- the loop breaks at end of input
          v6Finish i' ip' ell
        else if rest.headD ' ' ≠ ':' then none
        else if rest.length == 1 then none
        else
          let rest' := rest.tail
          if rest'.headD ' ' = ':' then
            match ell with
            | some _ => none
            | none =>
              let rest'' := rest'.tail
              if rest'' = [] then
                -- a trailing `::`: the loop breaks
                v6Finish i' ip' (some i')
              else v6Loop fuel rest'' i' ip' (some i')
          else v6Loop fuel rest' i' ip' ell

/-- Model of `netip.parseIPv6` as used by `net.ParseIP`: a `%` zone suffix
always makes `net.ParseIP` fail (an empty zone is a parse error, a
non-empty zone is rejected by `net.parseIP` afterwards), so it is collapsed
into failure here. -/
def parseIPv6 (inp : List Char) : Option (List Nat) :=
  if inp.contains '%' then none
  else if startsWith inp [':', ':'] then
    let s := inp.drop 2
    if s = [] then some (List.replicate 16 0)
    else v6Loop 8 s 0 [] (some 0)
  else v6Loop 8 inp 0 [] none

/-- The v4-in-v6 prefix `v4InV6Prefix` of the Go `net` package. -/
def v4InV6Pre : List Nat := [0, 0, 0, 0, 0, 0, 0, 0, 0, 0, 0xff, 0xff]

/-- 16-byte (IPv4-mapped) form of a 4-byte IPv4 address, as
`netip.Addr.As16` produces for an IPv4 address. -/
def v4as16 (ip4 : List Nat) : List Nat := v4InV6Pre ++ ip4

/-- Model of `net.ParseIP`: scan for the first `.`, `:` or `%`; a dot means
IPv4 (returned in 16-byte mapped form), a colon means IPv6, a percent or no
special character at all means failure. -/
def parseIP (s : List Char) : Option (List Nat) :=
  match s.find? (fun c => c == '.' || c == ':' || c == '%') with
  | some c =>
    if c = '.' then (parseIPv4 s).map v4as16
    else if c = ':' then parseIPv6 s
    else none
  | none => none

/-- Model of `net.IP.To4`: the 4-byte form of an address that is IPv4 or
v4-in-v6 mapped, otherwise `none`. -/
def toV4 (ip : List Nat) : Option (List Nat) :=
  if ip.length == 4 then some ip
  else if ip.length == 16 && decide (ip.take 12 = v4InV6Pre) then some (ip.drop 12)
  else none

/-- The 16-byte IPv6 loopback address `::1` (`net.IPv6loopback`). -/
def ipv6Loopback : List Nat := [0, 0, 0, 0, 0, 0, 0, 0, 0, 0, 0, 0, 0, 0, 0, 1]

/-- Model of `net.IP.Equal`: equal lengths compare bytewise; a 4-byte and a
16-byte address are equal when the long one is the v4-in-v6 mapping of the
short one. -/
def ipEqual (x y : List Nat) : Bool :=
  if x.length == y.length then x == y
  else if x.length == 4 && y.length == 16 then
    (y.take 12 == v4InV6Pre) && (y.drop 12 == x)
  else if x.length == 16 && y.length == 4 then
    (x.take 12 == v4InV6Pre) && (x.drop 12 == y)
  else false

/-- Model of `net.IP.IsLoopback`: an IPv4 (or v4-mapped) address is a
loopback iff its first octet is 127; otherwise the address must equal `::1`. -/
def isLoopback (ip : List Nat) : Bool :=
  match toV4 ip with
  | some ip4 => ip4.headD 0 == 127
  | none => ipEqual ip ipv6Loopback

/-- Model of `getLines`: split the input into lines, strip comments and
surrounding whitespace from each line, preserving line count and order.
Written as the source's append loop over the split lines. -/
def getLines (input commentMarker : List Char) : List (List Char) :=
  (splitNl input).foldl
    (fun output currentLine => output ++ [trimSpace (truncAtMark currentLine commentMarker)])
    []

/-! ### Nameserver and option extraction (`getNameservers`, `getOptions`) -/

/-- The keyword constant `nameserverKey = "nameserver"`. -/
def nameserverKey : List Char := "nameserver".toList

/-- The keyword constant `optionKey = "option"`. -/
def optionKey : List Char := "option".toList

/-- The data carried by `getNameservers`'s error
`fmt.Errorf("line %v: invalid ip address of nameserver: %q", i, line)`:
the 0-based index of the offending line and the offending (trimmed,
keyword-stripped) text. -/
structure NsParseErr where
  lineIndex : Nat
  text : List Char
deriving DecidableEq

/-- The trimmed remainder of a line after stripping the `nameserver`
keyword: the shadowing `line :=` inside `getNameservers`'s loop. -/
def nsValue (line : List Char) : List Char :=
  trimSpace (trimPref line nameserverKey)

/-- The body of `getNameservers`'s indexed loop over the stripped lines:
skip lines not starting with `nameserver`; for matching lines parse the
keyword-stripped remainder as an IP, failing fast with the line index and
the remainder on an unparseable address. -/
def getNameserversAux : Nat → List (List Char) → Except NsParseErr (List (List Nat))
  | _, [] => Except.ok []
  | i, line :: rest =>
    if startsWith line nameserverKey then
      match parseIP (nsValue line) with
      | none => Except.error ⟨i, nsValue line⟩
      | some ip => (getNameserversAux (i + 1) rest).map (fun ns => ip :: ns)
    else getNameserversAux (i + 1) rest

/-- Model of `getNameservers`: nameservers listed in the config text, in
file order, or the first parse failure. -/
def getNameservers (resolvConf : List Char) : Except NsParseErr (List (List Nat)) :=
  getNameserversAux 0 (getLines resolvConf commentMark)

/-- Model of `getOptions`: for every stripped line starting with `option`,
append `strings.TrimSpace(strings.TrimPrefix(line, nameserverKey))` — the
source strips `nameserverKey`, not `optionKey`, on these lines. -/
def getOptions (resolvConf : List Char) : List (List Char) :=
  (getLines resolvConf commentMark).foldl
    (fun options line =>
      if startsWith line optionKey then
        options ++ [trimSpace (trimPref line nameserverKey)]
      else options)
    []

/-! ### UTF-8 encoding (Go strings are byte strings; file bytes are the
UTF-8 encoding of the modelled character sequence) -/

/-- UTF-8 encoding of one Unicode scalar. -/
def utf8EncodeChar (c : Char) : List Nat :=
  let n := c.toNat
  if n < 0x80 then [n]
  else if n < 0x800 then
    [0xC0 + n / 64, 0x80 + n % 64]
  else if n < 0x10000 then
    [0xE0 + n / 4096, 0x80 + n / 64 % 64, 0x80 + n % 64]
  else
    [0xF0 + n / 262144, 0x80 + n / 4096 % 64, 0x80 + n / 64 % 64, 0x80 + n % 64]

/-- UTF-8 encoding of a character sequence as a byte list. -/
def utf8Encode (s : List Char) : List Nat :=
  (s.map utf8EncodeChar).flatten

/-! ### SHA-256 (model of `crypto/sha256` as used by `hashData`) -/

/-- Reduce to a 32-bit word. -/
def w32 (n : Nat) : Nat := n % 4294967296

/-- 32-bit right rotation. -/
def rotr (x n : Nat) : Nat := w32 ((x >>> n) ||| (x <<< (32 - n)))

/-- Bitwise complement on 32-bit words. -/
def notW (x : Nat) : Nat := x ^^^ 0xFFFFFFFF

/-- SHA-256 Ch function. -/
def chFn (x y z : Nat) : Nat := (x &&& y) ^^^ (notW x &&& z)

/-- SHA-256 Maj function. -/
def majFn (x y z : Nat) : Nat := (x &&& y) ^^^ (x &&& z) ^^^ (y &&& z)

/-- SHA-256 Σ₀. -/
def bigSigma0 (x : Nat) : Nat := rotr x 2 ^^^ rotr x 13 ^^^ rotr x 22

/-- SHA-256 Σ₁. -/
def bigSigma1 (x : Nat) : Nat := rotr x 6 ^^^ rotr x 11 ^^^ rotr x 25

/-- SHA-256 σ₀. -/
def smallSigma0 (x : Nat) : Nat := rotr x 7 ^^^ rotr x 18 ^^^ (x >>> 3)

/-- SHA-256 σ₁. -/
def smallSigma1 (x : Nat) : Nat := rotr x 17 ^^^ rotr x 19 ^^^ (x >>> 10)

/-- The 64 SHA-256 round constants. -/
def k256 : List Nat :=
  [1116352408, 1899447441, 3049323471, 3921009573, 961987163,
   1508970993, 2453635748, 2870763221, 3624381080, 310598401,
   607225278, 1426881987, 1925078388, 2162078206, 2614888103,
   3248222580, 3835390401, 4022224774, 264347078, 604807628,
   770255983, 1249150122, 1555081692, 1996064986, 2554220882,
   2821834349, 2952996808, 3210313671, 3336571891, 3584528711,
   113926993, 338241895, 666307205, 773529912, 1294757372,
   1396182291, 1695183700, 1986661051, 2177026350, 2456956037,
   2730485921, 2820302411, 3259730800, 3345764771, 3516065817,
   3600352804, 4094571909, 275423344, 430227734, 506948616,
   659060556, 883997877, 958139571, 1322822218, 1537002063,
   1747873779, 1955562222, 2024104815, 2227730452, 2361852424,
   2428436474, 2756734187, 3204031479, 3329325298]

/-- Eight 32-bit words: the SHA-256 chaining state (and the working
variables `a..h` during compression). -/
structure H8 where
  h0 : Nat
  h1 : Nat
  h2 : Nat
  h3 : Nat
  h4 : Nat
  h5 : Nat
  h6 : Nat
  h7 : Nat
deriving DecidableEq

/-- The SHA-256 initial hash value. -/
def initH : H8 :=
  ⟨1779033703, 3144134277, 1013904242, 2773480762,
   1359893119, 2600822924, 528734635, 1541459225⟩

/-- One SHA-256 compression round on working variables `a..h` (stored in an
`H8`), with round constant `k` and schedule word `w`. -/
def sha256Round (k w : Nat) (s : H8) : H8 :=
  let t1 := w32 (s.h7 + bigSigma1 s.h4 + chFn s.h4 s.h5 s.h6 + k + w)
  let t2 := w32 (bigSigma0 s.h0 + majFn s.h0 s.h1 s.h2)
  ⟨w32 (t1 + t2), s.h0, s.h1, s.h2, w32 (s.h3 + t1), s.h4, s.h5, s.h6⟩

/-- Big-endian bytes of a 32-bit word. -/
def be32 (w : Nat) : List Nat :=
  [(w >>> 24) % 256, (w >>> 16) % 256, (w >>> 8) % 256, w % 256]

/-- Big-endian bytes of a 64-bit word. -/
def be64 (n : Nat) : List Nat :=
  [(n >>> 56) % 256, (n >>> 48) % 256, (n >>> 40) % 256, (n >>> 32) % 256,
   (n >>> 24) % 256, (n >>> 16) % 256, (n >>> 8) % 256, n % 256]

/-- Group a byte list into big-endian 32-bit words. -/
def toWords : List Nat → List Nat
  | b0 :: b1 :: b2 :: b3 :: rest =>
    (((b0 * 256 + b1) * 256 + b2) * 256 + b3) :: toWords rest
  | _ => []

/-- Extend the 16 message words to the 64-word SHA-256 schedule (`n` is the
number of words still to append, 48 from the top). -/
def extendW : Nat → List Nat → List Nat
  | 0, ws => ws
  | n + 1, ws =>
    extendW n (ws ++ [w32 (smallSigma1 (ws.getD (ws.length - 2) 0) +
      ws.getD (ws.length - 7) 0 + smallSigma0 (ws.getD (ws.length - 15) 0) +
      ws.getD (ws.length - 16) 0)])

/-- SHA-256 compression of one 64-byte block into the chaining state. -/
def compressBlock (h : H8) (block : List Nat) : H8 :=
  let w := extendW 48 (toWords block)
  let s := (k256.zip w).foldl (fun s kw => sha256Round kw.1 kw.2 s) h
  ⟨w32 (h.h0 + s.h0), w32 (h.h1 + s.h1), w32 (h.h2 + s.h2), w32 (h.h3 + s.h3),
   w32 (h.h4 + s.h4), w32 (h.h5 + s.h5), w32 (h.h6 + s.h6), w32 (h.h7 + s.h7)⟩

/-- SHA-256 padding: append `0x80`, zero bytes up to 56 mod 64, then the
64-bit big-endian bit length. -/
def padMsg (msg : List Nat) : List Nat :=
  let l := msg.length
  msg ++ [0x80] ++ List.replicate ((55 + 64 - l % 64) % 64) 0 ++
    be64 (l * 8 % 18446744073709551616)

/-- Split a byte list into 64-byte blocks; structural recursion on a fuel
bound (each step drops at least one byte, so `fuel = length` suffices). -/
def toBlocksF : Nat → List Nat → List (List Nat)
  | _, [] => []
  | 0, _ :: _ => []
  | fuel + 1, b :: bs => ((b :: bs).take 64) :: toBlocksF fuel ((b :: bs).drop 64)

/-- Split the padded message into 64-byte blocks. -/
def toBlocks (bs : List Nat) : List (List Nat) :=
  toBlocksF bs.length bs

/-- SHA-256 digest (32 bytes) of a byte list. -/
def sha256Bytes (msg : List Nat) : List Nat :=
  let h := (toBlocks (padMsg msg)).foldl compressBlock initH
  be32 h.h0 ++ be32 h.h1 ++ be32 h.h2 ++ be32 h.h3 ++
  be32 h.h4 ++ be32 h.h5 ++ be32 h.h6 ++ be32 h.h7

/-- The lowercase hex alphabet, `encoding/hex`'s `hextable`. -/
def hexTable : List Char := "0123456789abcdef".toList

/-- Model of `hex.EncodeToString`: two lowercase hex digits per byte,
looked up in `hextable` exactly as `encoding/hex` does. -/
def hexEncode (bs : List Nat) : List Char :=
  (bs.map (fun b => [hexTable.getD (b / 16) '0', hexTable.getD (b % 16) '0'])).flatten

/-- Model of `hashData`: `"sha256:" + hex.EncodeToString(sha256(src))`.
The Go error path (an `io.Copy` failure) is unreachable for the in-memory
`bytes.Reader` the package always passes, so the model is total. -/
def hashData (src : List Nat) : List Char :=
  "sha256:".toList ++ hexEncode (sha256Bytes src)

/-! ### The reader (`GetSpecific`) and the path resolver (`Path`)

The filesystem is an external collaborator, modelled as a function from a
path to `none` (read error) or the file's text. -/

/-- A filesystem: what `ioutil.ReadFile` returns for each path. -/
def FS : Type := List Char → Option (List Char)

/-- The snapshot type `File`: raw content bytes, hash string, parsed
nameservers and raw option strings. -/
structure File where
  Content : List Nat
  Hash : List Char
  Nameservers : List (List Nat)
  Options : List (List Char)
deriving DecidableEq

/-- Errors surfaced by `GetSpecific`: the `ioutil.ReadFile` error or the
`getNameservers` parse error (with its line index and offending text).
The `hashData` error branch is unreachable (see `hashData`). -/
inductive ReadErr where
  | fileAccess : ReadErr
  | parse : Nat → List Char → ReadErr
deriving DecidableEq

/-- Model of `GetSpecific`: read the file, hash its raw bytes, extract
nameservers (propagating their parse error) and options, and return the
fully populated snapshot. -/
def GetSpecific (fs : FS) (path : List Char) : Except ReadErr File :=
  match fs path with
  | none => Except.error ReadErr.fileAccess
  | some text =>
    let resolv := utf8Encode text
    let hash := hashData resolv
    match getNameservers text with
    | Except.error e => Except.error (ReadErr.parse e.lineIndex e.text)
    | Except.ok nameservers =>
      Except.ok ⟨resolv, hash, nameservers, getOptions text⟩

/-- The constant `defaultPath = "/etc/resolv.conf"`. -/
def defaultPath : List Char := "/etc/resolv.conf".toList

/-- The constant `alternatePath = "/run/systemd/resolve/resolv.conf"`. -/
def alternatePath : List Char := "/run/systemd/resolve/resolv.conf".toList

/-- The body of `Path`'s `sync.Once` closure, as a function of the result
of reading `defaultPath`: on a read error or a nameserver parse error keep
the default path (errors are swallowed); if exactly one nameserver was
found and it is a loopback address, pick the alternate path. -/
def detectPath (readDefault : Option (List Char)) : List Char :=
  match readDefault with
  | none => defaultPath
  | some content =>
    match getNameservers content with
    | Except.error _ => defaultPath
    | Except.ok ns =>
      if ns.length == 1 && isLoopback (ns.headD []) then alternatePath
      else defaultPath

/-- The process-wide memoization state behind `Path`:
`detectSystemdResolvConfOnce` and `pathAfterSystemdDetection`, plus a count
of file probes performed (to state "at most one read"). -/
structure OnceState where
  done : Bool
  path : List Char
  probes : Nat
deriving DecidableEq

/-- The initial process state: detection not yet run,
`pathAfterSystemdDetection = defaultPath`, no probes. -/
def initState : OnceState := ⟨false, defaultPath, 0⟩

/-- One call of `Path()` as a state transition.  `sync.Once` serializes
concurrent first callers and makes later callers observe the completed
state, so calls form a sequence of these transitions: the first call probes
the filesystem once and memoizes `detectPath`'s decision; every later call
returns the memoized path without touching the filesystem. -/
def pathCall (fs : FS) (s : OnceState) : List Char × OnceState :=
  if s.done then (s.path, s)
  else
    let p := detectPath (fs defaultPath)
    (p, ⟨true, p, s.probes + 1⟩)

/-- The results and final state of `n` successive `Path()` calls. -/
def pathCalls (fs : FS) : Nat → List (List Char) × OnceState
  | 0 => ([], initState)
  | n + 1 =>
    let r := pathCalls fs n
    let c := pathCall fs r.2
    (r.1 ++ [c.1], c.2)

/-! ### Predicates used in the theorem statements -/

/-- A stripped line recognized as a nameserver entry: it starts with the
`nameserver` keyword (string prefix, no separator required). -/
def isNsLine (line : List Char) : Bool := startsWith line nameserverKey

/-- A recognized nameserver line whose value does not parse as an IP
address literal. -/
def nsLineBad (line : List Char) : Bool :=
  isNsLine line && (parseIP (nsValue line)).isNone

/-- Join a sequence of lines with newline separators (the left inverse of
`splitNl`, used to state what "the newline-separated lines of the input"
means). -/
def joinNl : List (List Char) → List Char
  | [] => []
  | [l] => l
  | l :: ls => l ++ '\n' :: joinNl ls

/-- The byte list of a 33-byte vector (for the collision existence
argument). -/
def byteListOf (v : Fin 33 → Fin 256) : List Nat :=
  List.ofFn (fun j => (v j).val)

/-- The SHA-256 digest of a 33-byte input, viewed with a finite codomain
(digests are 32 bytes, each below 256; the `% 256` only bridges the type). -/
def digestFn (v : Fin 33 → Fin 256) : Fin 32 → Fin 256 :=
  fun i => ⟨(sha256Bytes (byteListOf v)).getD i.val 0 % 256,
    Nat.mod_lt _ (by norm_num)⟩

/-! ### Helper lemmas -/

theorem foldl_push_eq_map {α β : Type} (f : α → β) (xs : List α) (acc : List β) :
    xs.foldl (fun o x => o ++ [f x]) acc = acc ++ xs.map f := by
  induction xs generalizing acc with
  | nil => simp
  | cons x xs ih => simp [ih]

theorem getLines_eq_map (input commentMarker : List Char) :
    getLines input commentMarker =
      (splitNl input).map (fun l => trimSpace (truncAtMark l commentMarker)) := by
  simpa [getLines] using
    foldl_push_eq_map (fun l => trimSpace (truncAtMark l commentMarker)) (splitNl input) []

theorem getNameserversAux_ok_nil (i : Nat) (ls : List (List Char))
    (h : ∀ l ∈ ls, isNsLine l = false) : getNameserversAux i ls = Except.ok [] := by
  induction ls generalizing i with
  | nil => rfl
  | cons l ls ih =>
    have hl : startsWith l nameserverKey = false := h l (by simp)
    simp only [getNameserversAux, hl, Bool.false_eq_true, if_false]
    exact ih (i + 1) (fun x hx => h x (by simp [hx]))

theorem getSpecific_none (fs : FS) (path : List Char) (h : fs path = none) :
    GetSpecific fs path = Except.error ReadErr.fileAccess := by
  simp only [GetSpecific, h]

theorem getSpecific_parse_error (fs : FS) (path text : List Char) (e : NsParseErr)
    (h : fs path = some text) (he : getNameservers text = Except.error e) :
    GetSpecific fs path = Except.error (ReadErr.parse e.lineIndex e.text) := by
  simp only [GetSpecific, h, he]

theorem getSpecific_ok (fs : FS) (path text : List Char) (ns : List (List Nat))
    (h : fs path = some text) (hns : getNameservers text = Except.ok ns) :
    GetSpecific fs path =
      Except.ok ⟨utf8Encode text, hashData (utf8Encode text), ns, getOptions text⟩ := by
  simp only [GetSpecific, h, hns]

theorem getSpecific_ok_shape (fs : FS) (path : List Char) (f : File)
    (h : GetSpecific fs path = Except.ok f) :
    ∃ text, fs path = some text ∧ getNameservers text = Except.ok f.Nameservers ∧
      f = ⟨utf8Encode text, hashData (utf8Encode text), f.Nameservers, getOptions text⟩ := by
  cases hr : fs path with
  | none => rw [getSpecific_none fs path hr] at h; cases h
  | some text =>
    cases hns : getNameservers text with
    | error e => rw [getSpecific_parse_error fs path text e hr hns] at h; cases h
    | ok ns =>
      rw [getSpecific_ok fs path text ns hr hns] at h
      cases h
      exact ⟨text, rfl, hns, rfl⟩

/-- C7: `Read` (`GetSpecific`) returns either an error or a fully populated
snapshot, never a partial one: on a file-access or parse failure (the hash
step cannot fail on in-memory data) no snapshot is produced, and on success
`Content`, `Hash`, `Nameservers` and `Options` all come from the single
file read. -/
theorem read_error_xor_full_snapshot (fs : FS) (path : List Char) :
    (∃ e, GetSpecific fs path = Except.error e ∧
      ∀ f, GetSpecific fs path ≠ Except.ok f) ∨
    (∃ text f, fs path = some text ∧ GetSpecific fs path = Except.ok f ∧
      f.Content = utf8Encode text ∧ f.Hash = hashData (utf8Encode text) ∧
      getNameservers text = Except.ok f.Nameservers ∧
      f.Options = getOptions text) := by
  cases hr : fs path with
  | none =>
    refine Or.inl ⟨ReadErr.fileAccess, getSpecific_none fs path hr, fun f hf => ?_⟩
    rw [getSpecific_none fs path hr] at hf
    cases hf
  | some text =>
    cases hns : getNameservers text with
    | error e =>
      refine Or.inl ⟨ReadErr.parse e.lineIndex e.text,
        getSpecific_parse_error fs path text e hr hns, fun f hf => ?_⟩
      rw [getSpecific_parse_error fs path text e hr hns] at hf
      cases hf
    | ok ns =>
      exact Or.inr ⟨text, ⟨utf8Encode text, hashData (utf8Encode text), ns, getOptions text⟩,
        rfl, getSpecific_ok fs path text ns hr hns, rfl, rfl, hns, rfl⟩

/-- C8: for every readable file none of whose stripped lines starts with
the `nameserver` keyword, `Read` succeeds and its `Nameservers` field is
the empty sequence. -/
theorem read_no_nameserver_lines_ok (fs : FS) (path text : List Char)
    (hread : fs path = some text)
    (hno : ∀ l ∈ getLines text commentMark, isNsLine l = false) :
    ∃ f, GetSpecific fs path = Except.ok f ∧ f.Nameservers = [] := by
  have hns : getNameservers text = Except.ok [] :=
    getNameserversAux_ok_nil 0 _ hno
  exact ⟨⟨utf8Encode text, hashData (utf8Encode text), [], getOptions text⟩,
    getSpecific_ok fs path text [] hread hns, rfl⟩

/-- Witness for C8 at the concrete file `"# comment only\n"`. -/
theorem read_no_nameserver_lines_ok_witness :
    ∃ f, GetSpecific (fun _ => some "# comment only\n".toList) defaultPath = Except.ok f ∧
      f.Nameservers = [] :=
  read_no_nameserver_lines_ok (fun _ => some "# comment only\n".toList) defaultPath
    "# comment only\n".toList rfl (by decide)

/-- C4: `Path()` never signals an error: on a read failure or a nameserver
parse failure of the default file, the error is swallowed and the call
still returns `/etc/resolv.conf` (the return type of `pathCall` has no
error channel at all). -/
theorem path_swallows_errors (fs : FS)
    (h : fs defaultPath = none ∨
      ∃ text e, fs defaultPath = some text ∧ getNameservers text = Except.error e) :
    (pathCall fs initState).1 = defaultPath := by
  have hstep : (pathCall fs initState).1 = detectPath (fs defaultPath) := rfl
  rw [hstep]
  rcases h with h | ⟨text, e, hr, he⟩
  · rw [h]; rfl
  · simp only [detectPath, hr, he]

/-- Witness for C4 with an unreadable default file. -/
theorem path_swallows_errors_witness :
    (pathCall (fun _ => none) initState).1 = defaultPath :=
  path_swallows_errors (fun _ => none) (Or.inl rfl)

theorem detectPath_none_eq : detectPath none = defaultPath := rfl

theorem detectPath_err_eq (content : List Char) (e : NsParseErr)
    (he : getNameservers content = Except.error e) :
    detectPath (some content) = defaultPath := by
  simp only [detectPath, he]

theorem detectPath_ok_eq (content : List Char) (ns : List (List Nat))
    (hns : getNameservers content = Except.ok ns) :
    detectPath (some content) =
      if (ns.length == 1 && isLoopback (ns.headD [])) = true then alternatePath
      else defaultPath := by
  simp only [detectPath, hns]

theorem detectPath_cases (r : Option (List Char)) :
    detectPath r = defaultPath ∨ detectPath r = alternatePath := by
  cases r with
  | none => exact Or.inl detectPath_none_eq
  | some content =>
    cases hns : getNameservers content with
    | error e => exact Or.inl (detectPath_err_eq content e hns)
    | ok ns =>
      rw [detectPath_ok_eq content ns hns]
      by_cases h : (ns.length == 1 && isLoopback (ns.headD [])) = true
      · rw [if_pos h]; exact Or.inr rfl
      · rw [if_neg h]; exact Or.inl rfl

theorem default_ne_alternate : defaultPath ≠ alternatePath := by decide

/-- C2: the first `Path()` call returns the alternate path
`/run/systemd/resolve/resolv.conf` iff the default file is readable, its
nameserver entries parse, and exactly one nameserver was found and it is a
loopback address; in every other case it returns `/etc/resolv.conf`. -/
theorem path_alternate_iff (fs : FS) :
    ((pathCall fs initState).1 = alternatePath ↔
      ∃ text ip, fs defaultPath = some text ∧
        getNameservers text = Except.ok [ip] ∧ isLoopback ip = true) ∧
    ((pathCall fs initState).1 = alternatePath ∨
      (pathCall fs initState).1 = defaultPath) := by
  have hstep : (pathCall fs initState).1 = detectPath (fs defaultPath) := rfl
  rw [hstep]
  refine ⟨⟨?_, ?_⟩, (detectPath_cases (fs defaultPath)).symm⟩
  · intro h
    cases hr : fs defaultPath with
    | none =>
      rw [hr, detectPath_none_eq] at h
      exact absurd h default_ne_alternate
    | some text =>
      rw [hr] at h
      cases hns : getNameservers text with
      | error e =>
        rw [detectPath_err_eq text e hns] at h
        exact absurd h default_ne_alternate
      | ok ns =>
        rw [detectPath_ok_eq text ns hns] at h
        by_cases hc : (ns.length == 1 && isLoopback (ns.headD [])) = true
        · have hsplit := (Bool.and_eq_true _ _).mp hc
          have h1 : ns.length = 1 := beq_iff_eq.mp hsplit.1
          obtain ⟨ip, rfl⟩ : ∃ ip, ns = [ip] := by
            cases ns with
            | nil => cases h1
            | cons a t =>
              cases t with
              | nil => exact ⟨a, rfl⟩
              | cons b t2 => simp at h1
          have h2 : isLoopback ip = true := by simpa using hsplit.2
          exact ⟨text, ip, rfl, hns, h2⟩
        · rw [if_neg hc] at h
          exact absurd h default_ne_alternate
  · rintro ⟨text, ip, hr, hns, hl⟩
    rw [hr, detectPath_ok_eq text [ip] hns]
    simp [hl]

theorem pathCalls_succ_eq (fs : FS) (n : Nat) :
    pathCalls fs (n + 1) =
      ((pathCalls fs n).1 ++ [(pathCall fs (pathCalls fs n).2).1],
        (pathCall fs (pathCalls fs n).2).2) := rfl

theorem pathCall_done (fs : FS) (p : List Char) (k : Nat) :
    pathCall fs ⟨true, p, k⟩ = (p, ⟨true, p, k⟩) := rfl

/-- The state after at least one `Path()` call: detection is marked done,
the memoized path is the first call's result, and exactly one file probe
has been performed; every call so far returned that same string. -/
theorem pathCalls_succ_state (fs : FS) (n : Nat) :
    (pathCalls fs (n + 1)).2 = ⟨true, (pathCall fs initState).1, 1⟩ ∧
    ∀ p ∈ (pathCalls fs (n + 1)).1, p = (pathCall fs initState).1 := by
  induction n with
  | zero =>
    refine ⟨rfl, ?_⟩
    intro p hp
    simp only [pathCalls, List.nil_append, List.mem_singleton] at hp
    exact hp
  | succ n ih =>
    rw [pathCalls_succ_eq fs (n + 1), ih.1, pathCall_done]
    refine ⟨rfl, ?_⟩
    intro p hp
    rcases List.mem_append.mp hp with hp | hp
    · exact ih.2 p hp
    · simpa using hp

/-- C5: `Path()` is computed at most once per process: after the first
completed call, every later call (the `sync.Once` serializes concurrent
callers into this call sequence) returns the identical string, no further
file probe is performed (the probe count stays 1), and the memoized path is
never invalidated. -/
theorem path_computed_once (fs : FS) (n : Nat) (hn : 1 ≤ n) :
    (pathCalls fs n).2.probes = 1 ∧
    (pathCalls fs n).2 = ⟨true, (pathCall fs initState).1, 1⟩ ∧
    ∀ p ∈ (pathCalls fs n).1, p = (pathCall fs initState).1 := by
  obtain ⟨m, rfl⟩ : ∃ m, n = m + 1 := ⟨n - 1, by omega⟩
  obtain ⟨h1, h2⟩ := pathCalls_succ_state fs m
  exact ⟨by rw [h1], h1, h2⟩

/-- Witness for C5: three sequential calls against a fixed filesystem. -/
theorem path_computed_once_witness :
    (pathCalls (fun _ => some "nameserver 127.0.0.53".toList) 3).2.probes = 1 :=
  (path_computed_once (fun _ => some "nameserver 127.0.0.53".toList) 3 (by omega)).1

/-- C10: nameserver recognition is by string prefix only — the value is
the line with the 10-character keyword removed and whitespace trimmed, so
`nameserver8.8.8.8` (no separator) parses as 8.8.8.8 while `nameservers`
is a parse error for the whole read. -/
theorem nameserver_prefix_only :
    (∀ line : List Char, startsWith line nameserverKey = true →
      nsValue line = trimSpace (line.drop 10)) ∧
    nameserverKey.length = 10 ∧
    getNameservers "nameserver8.8.8.8".toList = Except.ok [v4as16 [8, 8, 8, 8]] ∧
    getNameservers "nameservers".toList = Except.error ⟨0, ['s']⟩ ∧
    GetSpecific (fun _ => some "nameservers".toList) defaultPath =
      Except.error (ReadErr.parse 0 ['s']) := by
  refine ⟨?_, by decide, by decide, by decide, ?_⟩
  · intro line h
    have hlen : nameserverKey.length = 10 := by decide
    simp only [nsValue, trimPref, h, if_true, hlen]
  · exact getSpecific_parse_error _ _ _ ⟨0, ['s']⟩ rfl (by decide)

/-- Witness for C10's universally quantified part at a concrete line. -/
theorem nameserver_prefix_only_witness :
    nsValue "nameserver8.8.8.8".toList = trimSpace ("nameserver8.8.8.8".toList.drop 10) :=
  nameserver_prefix_only.1 "nameserver8.8.8.8".toList (by decide)

/-- C1 (evidence of the copy-paste defect): on the spec scenario file the
code returns `Options = ["option ndots:0"]` — `getOptions` strips the
`nameserver` keyword, not the `option` keyword, so the `option` keyword is
NOT removed and the result differs from the documented `["ndots:0"]`.
The nameserver part of the scenario does hold (`Nameservers = [8.8.8.8]`). -/
theorem scenario_options_keep_keyword :
    GetSpecific (fun _ => some "nameserver 8.8.8.8\n# comment\noption ndots:0".toList)
        defaultPath =
      Except.ok
        ⟨utf8Encode "nameserver 8.8.8.8\n# comment\noption ndots:0".toList,
         hashData (utf8Encode "nameserver 8.8.8.8\n# comment\noption ndots:0".toList),
         [v4as16 [8, 8, 8, 8]],
         ["option ndots:0".toList]⟩ ∧
    getOptions "nameserver 8.8.8.8\n# comment\noption ndots:0".toList =
      ["option ndots:0".toList] ∧
    "option ndots:0".toList ≠ "ndots:0".toList := by
  refine ⟨?_, by decide, by decide⟩
  exact getSpecific_ok _ _ _ _ rfl (by decide)

theorem getNameserversAux_first_bad (ls : List (List Char)) (i : Nat)
    (h : ∃ l ∈ ls, nsLineBad l = true) :
    ∃ k, k < ls.length ∧ nsLineBad (ls.getD k []) = true ∧
      ((ls.take k).all (fun l => !nsLineBad l)) = true ∧
      getNameserversAux i ls = Except.error ⟨i + k, nsValue (ls.getD k [])⟩ := by
  induction ls generalizing i with
  | nil => simp at h
  | cons line rest ih =>
    by_cases hbad : nsLineBad line = true
    · have hstart : startsWith line nameserverKey = true := by
        have := (Bool.and_eq_true _ _).mp hbad
        simpa [isNsLine] using this.1
      have hnone : parseIP (nsValue line) = none := by
        have := (Bool.and_eq_true _ _).mp hbad
        exact Option.isNone_iff_eq_none.mp this.2
      refine ⟨0, by simp, by simpa using hbad, by simp, ?_⟩
      simp only [getNameserversAux, hstart, if_true, hnone, Nat.add_zero]
      rfl
    · have hrest : ∃ l ∈ rest, nsLineBad l = true := by
        rcases h with ⟨l, hl, hbadl⟩
        rcases List.mem_cons.mp hl with rfl | hl
        · exact absurd hbadl hbad
        · exact ⟨l, hl, hbadl⟩
      obtain ⟨k, hk, hkbad, hkall, hkeq⟩ := ih (i + 1) hrest
      refine ⟨k + 1, by simpa using hk, by simpa using hkbad, ?_, ?_⟩
      · simp only [List.take_succ_cons, List.all_cons, Bool.and_eq_true, Bool.not_eq_true]
        exact ⟨by simpa using hbad, hkall⟩
      · have harith : i + (k + 1) = (i + 1) + k := by omega
        by_cases hstart : startsWith line nameserverKey = true
        · have hsome : ∃ ip, parseIP (nsValue line) = some ip := by
            rcases hip : parseIP (nsValue line) with _ | ip
            · exact absurd (by simp [nsLineBad, isNsLine, hstart, hip]) hbad
            · exact ⟨ip, rfl⟩
          obtain ⟨ip, hip⟩ := hsome
          simp only [getNameserversAux, hstart, if_true, hip, hkeq, List.getD_cons_succ, harith]
          rfl
        · have hstart' : startsWith line nameserverKey = false :=
            Bool.not_eq_true _ ▸ eq_false_of_ne_true hstart
          simp only [getNameserversAux, hstart', Bool.false_eq_true, if_false, hkeq,
            List.getD_cons_succ, harith]

/-- C3: whenever some stripped line is recognized as a nameserver entry but
its value does not parse as an IP address literal, `Read` fails with a
parse error carrying the (0-based, deterministic) index of the first such
line and its offending text, and returns no nameserver list. -/
theorem read_fails_on_invalid_nameserver (fs : FS) (path text : List Char)
    (hread : fs path = some text)
    (hbad : ∃ l ∈ getLines text commentMark, nsLineBad l = true) :
    ∃ k, k < (getLines text commentMark).length ∧
      nsLineBad ((getLines text commentMark).getD k []) = true ∧
      (((getLines text commentMark).take k).all (fun l => !nsLineBad l)) = true ∧
      GetSpecific fs path =
        Except.error (ReadErr.parse k (nsValue ((getLines text commentMark).getD k []))) ∧
      ∀ f, GetSpecific fs path ≠ Except.ok f := by
  obtain ⟨k, hk, hkbad, hkall, hkeq⟩ :=
    getNameserversAux_first_bad (getLines text commentMark) 0 hbad
  have hns : getNameservers text =
      Except.error ⟨k, nsValue ((getLines text commentMark).getD k [])⟩ := by
    simpa [getNameservers] using hkeq
  have hget := getSpecific_parse_error fs path text _ hread hns
  refine ⟨k, hk, hkbad, hkall, hget, ?_⟩
  intro f hf
  rw [hget] at hf
  cases hf

/-- Witness for C3 at the concrete file `"nameserver 8.8.8.8\nnameserver foo"`:
the error identifies line 1 and the text `foo`. -/
theorem read_fails_on_invalid_nameserver_witness :
    GetSpecific (fun _ => some "nameserver 8.8.8.8\nnameserver foo".toList) defaultPath =
      Except.error (ReadErr.parse 1
        (nsValue ((getLines "nameserver 8.8.8.8\nnameserver foo".toList commentMark).getD 1 []))) := by
  have h := read_fails_on_invalid_nameserver
    (fun _ => some "nameserver 8.8.8.8\nnameserver foo".toList) defaultPath
    "nameserver 8.8.8.8\nnameserver foo".toList rfl
    ⟨"nameserver foo".toList, by decide, by decide⟩
  obtain ⟨k, hk, hkbad, hkall, hkeq, hnotok⟩ := h
  have hk1 : k = 1 := by
    rcases Nat.lt_or_ge k 1 with hlt | hge
    · interval_cases k
      · exact absurd hkbad (by decide)
    · rcases Nat.lt_or_ge k 2 with hlt2 | hge2
      · omega
      · exfalso
        have : k < 2 := by simpa using hk
        omega
  rw [hk1] at hkeq
  exact hkeq

theorem splitNl_ne_nil (s : List Char) : splitNl s ≠ [] := by
  cases s with
  | nil => simp [splitNl]
  | cons c cs =>
    by_cases h : c = '\n'
    · simp [splitNl, h]
    · simp only [splitNl, h, if_false]
      cases splitNl cs <;> simp

theorem splitNl_cons_nl (cs : List Char) : splitNl ('\n' :: cs) = [] :: splitNl cs := by
  simp [splitNl]

theorem splitNl_eq_cons (c : Char) (cs : List Char) (h : ¬ c = '\n') (l : List Char)
    (ls : List (List Char)) (hsp : splitNl cs = l :: ls) :
    splitNl (c :: cs) = (c :: l) :: ls := by
  simp [splitNl, h, hsp]

theorem splitNl_length (s : List Char) : (splitNl s).length = s.count '\n' + 1 := by
  induction s with
  | nil => rfl
  | cons c cs ih =>
    by_cases h : c = '\n'
    · subst h
      rw [splitNl_cons_nl]
      simp [List.count_cons, ih]
    · rcases hsp : splitNl cs with _ | ⟨l, ls⟩
      · exact absurd hsp (splitNl_ne_nil cs)
      · rw [splitNl_eq_cons c cs h l ls hsp]
        have hlen : (l :: ls).length = cs.count '\n' + 1 := hsp ▸ ih
        simp only [List.length_cons] at hlen ⊢
        rw [List.count_cons]
        have hc : (c == '\n') = false := beq_eq_false_iff_ne.mpr h
        simp only [hc, Bool.false_eq_true, if_false]
        omega

theorem joinNl_splitNl (s : List Char) : joinNl (splitNl s) = s := by
  induction s with
  | nil => rfl
  | cons c cs ih =>
    by_cases h : c = '\n'
    · subst h
      rw [splitNl_cons_nl]
      rcases hsp : splitNl cs with _ | ⟨l, ls⟩
      · exact absurd hsp (splitNl_ne_nil cs)
      · rw [hsp] at ih
        show [] ++ '\n' :: joinNl (l :: ls) = '\n' :: cs
        rw [ih]
        rfl
    · rcases hsp : splitNl cs with _ | ⟨l, ls⟩
      · exact absurd hsp (splitNl_ne_nil cs)
      · rw [splitNl_eq_cons c cs h l ls hsp]
        rw [hsp] at ih
        cases ls with
        | nil =>
          show c :: l = c :: cs
          have : l = cs := ih
          rw [this]
        | cons x xs =>
          show (c :: l) ++ '\n' :: joinNl (x :: xs) = c :: cs
          have : l ++ '\n' :: joinNl (x :: xs) = cs := ih
          rw [← this]
          rfl

theorem splitNl_no_newline (s : List Char) : ∀ l ∈ splitNl s, '\n' ∉ l := by
  induction s with
  | nil =>
    intro l hl
    simp [splitNl] at hl
    subst hl
    simp
  | cons c cs ih =>
    by_cases h : c = '\n'
    · subst h
      rw [splitNl_cons_nl]
      intro l hl
      rcases List.mem_cons.mp hl with rfl | hl
      · simp
      · exact ih l hl
    · rcases hsp : splitNl cs with _ | ⟨l0, ls⟩
      · exact absurd hsp (splitNl_ne_nil cs)
      · rw [splitNl_eq_cons c cs h l0 ls hsp]
        intro l hl
        rcases List.mem_cons.mp hl with rfl | hl
        · intro hmem
          rcases List.mem_cons.mp hmem with he | hmem
          · exact h he.symm
          · exact ih l0 (hsp ▸ List.mem_cons_self l0 ls) hmem
        · exact ih l (hsp ▸ List.mem_cons_of_mem l0 hl)

theorem indexOfSub_cons_eq (c : Char) (cs pat : List Char) :
    indexOfSub (c :: cs) pat =
      if startsWith (c :: cs) pat then some 0
      else (indexOfSub cs pat).map (· + 1) := rfl

theorem indexOfSub_eq_some (s pat : List Char) (i : Nat)
    (h : indexOfSub s pat = some i) :
    startsWith (s.drop i) pat = true ∧
    ∀ j < i, startsWith (s.drop j) pat = false := by
  induction s generalizing i with
  | nil =>
    by_cases hs : startsWith [] pat = true
    · have he : indexOfSub [] pat = some 0 := by simp [indexOfSub, hs]
      rw [he] at h
      cases h
      exact ⟨hs, by omega⟩
    · have he : indexOfSub [] pat = none := by
        have hunf : indexOfSub [] pat = if startsWith [] pat then some 0 else none := rfl
        rw [hunf, if_neg hs]
      rw [he] at h
      cases h
  | cons c cs ih =>
    rw [indexOfSub_cons_eq] at h
    by_cases hs : startsWith (c :: cs) pat = true
    · rw [if_pos hs] at h
      cases h
      exact ⟨hs, by omega⟩
    · rw [if_neg hs] at h
      rcases hm : indexOfSub cs pat with _ | i'
      · rw [hm] at h; cases h
      · rw [hm] at h
        have hi : i = i' + 1 := by
          simpa using h.symm
        subst hi
        obtain ⟨h1, h2⟩ := ih i' hm
        refine ⟨h1, ?_⟩
        intro j hj
        cases j with
        | zero =>
          simpa using eq_false_of_ne_true hs
        | succ j' =>
          exact h2 j' (by omega)

theorem indexOfSub_eq_none (s pat : List Char) (h : indexOfSub s pat = none) :
    ∀ j, startsWith (s.drop j) pat = false := by
  induction s with
  | nil =>
    intro j
    by_cases hs : startsWith [] pat = true
    · have he : indexOfSub [] pat = some 0 := by simp [indexOfSub, hs]
      rw [he] at h; cases h
    · simpa using eq_false_of_ne_true hs
  | cons c cs ih =>
    intro j
    rw [indexOfSub_cons_eq] at h
    by_cases hs : startsWith (c :: cs) pat = true
    · rw [if_pos hs] at h; cases h
    · rw [if_neg hs] at h
      have hm : indexOfSub cs pat = none := by
        rcases hm : indexOfSub cs pat with _ | i'
        · rfl
        · rw [hm] at h; cases h
      cases j with
      | zero => simpa using eq_false_of_ne_true hs
      | succ j' => exact ih hm j'

theorem trimLeft_eq_dropWhile (s : List Char) : trimLeft s = s.dropWhile isSpace := by
  induction s with
  | nil => rfl
  | cons c cs ih =>
    by_cases h : isSpace c = true
    · rw [List.dropWhile_cons_of_pos h]
      simpa [trimLeft, h] using ih
    · rw [List.dropWhile_cons_of_neg h]
      simp [trimLeft, h]

theorem trimSpace_eq_dropWhile (s : List Char) :
    trimSpace s = ((s.reverse.dropWhile isSpace).reverse).dropWhile isSpace := by
  show trimLeft ((trimLeft s.reverse).reverse) = _
  rw [trimLeft_eq_dropWhile, trimLeft_eq_dropWhile]

theorem head?_dropWhile_isSpace (l : List Char) :
    ∀ c, (l.dropWhile isSpace).head? = some c → isSpace c = false := by
  induction l with
  | nil => intro c hc; cases hc
  | cons a l ih =>
    intro c hc
    by_cases h : isSpace a = true
    · rw [List.dropWhile_cons_of_pos h] at hc
      exact ih c hc
    · rw [List.dropWhile_cons_of_neg h] at hc
      cases hc
      exact eq_false_of_ne_true h

theorem trimSpace_decomp (s : List Char) :
    ∃ a b, s = a ++ trimSpace s ++ b ∧
      (∀ c ∈ a, isSpace c = true) ∧ (∀ c ∈ b, isSpace c = true) := by
  refine ⟨((s.reverse.dropWhile isSpace).reverse).takeWhile isSpace,
    (s.reverse.takeWhile isSpace).reverse, ?_, ?_, ?_⟩
  · conv_rhs => rw [trimSpace_eq_dropWhile, List.takeWhile_append_dropWhile]
    rw [← List.reverse_append, List.takeWhile_append_dropWhile, List.reverse_reverse]
  · intro c hc
    exact List.mem_takeWhile_imp hc
  · intro c hc
    rw [List.mem_reverse] at hc
    exact List.mem_takeWhile_imp hc

theorem trimSpace_head_not_space (s : List Char) :
    ∀ c, (trimSpace s).head? = some c → isSpace c = false := by
  intro c hc
  rw [trimSpace_eq_dropWhile] at hc
  exact head?_dropWhile_isSpace _ c hc

theorem trimSpace_getLast_not_space (s : List Char) :
    ∀ c, (trimSpace s).getLast? = some c → isSpace c = false := by
  intro c hc
  rw [trimSpace_eq_dropWhile] at hc
  obtain ⟨pre, hpre⟩ := List.dropWhile_suffix (l := (s.reverse.dropWhile isSpace).reverse) isSpace
  have h1 : ((s.reverse.dropWhile isSpace).reverse).getLast? = some c := by
    rw [← hpre, List.getLast?_append, hc]
    rfl
  rw [List.getLast?_reverse] at h1
  exact head?_dropWhile_isSpace s.reverse c h1

/-- C9: the line-splitting routine returns one (whitespace-trimmed,
comment-truncated) element per newline-separated line of the input, in
order, keeping blank and comment-only lines as empty strings; each element
is the line cut at the first occurrence of the comment marker and then
trimmed of leading and trailing whitespace. -/
theorem getLines_line_structure (input marker : List Char) :
    (getLines input marker).length = input.count '\n' + 1 ∧
    joinNl (splitNl input) = input ∧
    (∀ l ∈ splitNl input, '\n' ∉ l) ∧
    getLines input marker =
      (splitNl input).map (fun l => trimSpace (truncAtMark l marker)) ∧
    (∀ line : List Char, ∀ i, indexOfSub line marker = some i →
      startsWith (line.drop i) marker = true ∧
      ∀ j < i, startsWith (line.drop j) marker = false) ∧
    (∀ line : List Char, indexOfSub line marker = none →
      ∀ j, startsWith (line.drop j) marker = false) ∧
    (∀ line : List Char, ∃ a b, line = a ++ trimSpace line ++ b ∧
      (∀ c ∈ a, isSpace c = true) ∧ (∀ c ∈ b, isSpace c = true) ∧
      (∀ c, (trimSpace line).head? = some c → isSpace c = false) ∧
      (∀ c, (trimSpace line).getLast? = some c → isSpace c = false)) := by
  refine ⟨?_, joinNl_splitNl input, splitNl_no_newline input, getLines_eq_map input marker,
    fun line i h => indexOfSub_eq_some line marker i h,
    fun line h => indexOfSub_eq_none line marker h, ?_⟩
  · rw [getLines_eq_map, List.length_map, splitNl_length]
  · intro line
    obtain ⟨a, b, hab, ha, hb⟩ := trimSpace_decomp line
    exact ⟨a, b, hab, ha, hb, trimSpace_head_not_space line, trimSpace_getLast_not_space line⟩

/-- Witness for C9's quantified statement at a concrete input. -/
theorem getLines_line_structure_witness :
    (getLines " a # b\nc".toList ['#']).length = " a # b\nc".toList.count '\n' + 1 :=
  (getLines_line_structure " a # b\nc".toList ['#']).1

theorem sha256Bytes_length (msg : List Nat) : (sha256Bytes msg).length = 32 := by
  simp [sha256Bytes, be32]

theorem be32_mem_lt (w : Nat) : ∀ b ∈ be32 w, b < 256 := by
  intro b hb
  simp only [be32, List.mem_cons, List.not_mem_nil, or_false] at hb
  rcases hb with rfl | rfl | rfl | rfl <;> exact Nat.mod_lt _ (by norm_num)

theorem sha256Bytes_mem_lt (msg : List Nat) : ∀ b ∈ sha256Bytes msg, b < 256 := by
  intro b hb
  simp only [sha256Bytes, List.mem_append] at hb
  rcases hb with ((((((hb | hb) | hb) | hb) | hb) | hb) | hb) | hb <;>
    exact be32_mem_lt _ b hb

theorem hexEncode_length (bs : List Nat) : (hexEncode bs).length = 2 * bs.length := by
  induction bs with
  | nil => rfl
  | cons b bs ih =>
    simp only [hexEncode, List.map_cons, List.flatten_cons] at ih ⊢
    simp only [List.length_append, List.length_cons, List.length_nil, ih, List.length_cons]
    omega

theorem hexTable_getD_mem (k : Nat) : hexTable.getD k '0' ∈ hexTable := by
  by_cases hk : k < hexTable.length
  · rw [List.getD_eq_getElem _ _ hk]
    exact List.getElem_mem hk
  · rw [List.getD_eq_default]
    · decide
    · omega

theorem hexEncode_mem (bs : List Nat) : ∀ c ∈ hexEncode bs, c ∈ hexTable := by
  intro c hc
  simp only [hexEncode, List.mem_flatten, List.mem_map] at hc
  obtain ⟨l, ⟨b, hb, rfl⟩, hcl⟩ := hc
  rcases List.mem_cons.mp hcl with rfl | hcl
  · exact hexTable_getD_mem _
  · rcases List.mem_cons.mp hcl with rfl | hcl
    · exact hexTable_getD_mem _
    · cases hcl

/-- C6 (amended): on every successful `Read` the `Hash` field is
`"sha256:"` followed by the 64-character lowercase-hex SHA-256 digest of
the snapshot's raw content bytes, and the hash is a function of the raw
bytes alone (identical bytes always give an identical hash) — but the
converse direction of the spec's "changes whenever any byte changes" can
only hold up to hash collisions, which mathematically exist. -/
theorem read_hash_format (fs : FS) (path : List Char) (f : File)
    (h : GetSpecific fs path = Except.ok f) :
    f.Hash = "sha256:".toList ++ hexEncode (sha256Bytes f.Content) ∧
    (hexEncode (sha256Bytes f.Content)).length = 64 ∧
    (∀ c ∈ hexEncode (sha256Bytes f.Content), c ∈ hexTable) ∧
    ∀ (fs' : FS) (path' : List Char) (f' : File),
      GetSpecific fs' path' = Except.ok f' → f'.Content = f.Content →
        f'.Hash = f.Hash := by
  obtain ⟨text, hr, hns, hf⟩ := getSpecific_ok_shape fs path f h
  have hHash : f.Hash = hashData f.Content := by rw [hf]
  refine ⟨?_, ?_, hexEncode_mem _, ?_⟩
  · rw [hHash]; rfl
  · rw [hexEncode_length, sha256Bytes_length]
  · intro fs' path' f' h' hC
    obtain ⟨text', hr', hns', hf'⟩ := getSpecific_ok_shape fs' path' f' h'
    have hHash' : f'.Hash = hashData f'.Content := by rw [hf']
    rw [hHash', hHash, hC]

/-- Witness for C6's amended theorem at a concrete (empty) file. -/
theorem read_hash_format_witness :
    GetSpecific (fun _ => some []) defaultPath =
      Except.ok ⟨[], hashData [], [], []⟩ ∧
    (⟨[], hashData [], [], []⟩ : File).Hash =
      "sha256:".toList ++ hexEncode (sha256Bytes ([] : List Nat)) := by
  have hok : GetSpecific (fun _ => some []) defaultPath =
      Except.ok ⟨[], hashData [], [], []⟩ :=
    getSpecific_ok (fun _ => some []) defaultPath [] [] rfl (by decide)
  exact ⟨hok, (read_hash_format _ _ _ hok).1⟩

theorem byteListOf_injective : Function.Injective byteListOf := by
  intro v v' h
  have h2 := List.ofFn_injective h
  funext j
  exact Fin.val_injective (congrFun h2 j)

/-- C6 (counterexample to the literal "changes whenever any byte changes"
direction): no function from arbitrary byte lists to 32-byte digests is
injective, so two distinct contents with an identical `hashData` value
exist (pigeonhole over the 33-byte inputs). -/
theorem hashData_not_injective :
    ∃ b1 b2 : List Nat, b1 ≠ b2 ∧ hashData b1 = hashData b2 := by
  have hlt : Fintype.card (Fin 32 → Fin 256) < Fintype.card (Fin 33 → Fin 256) := by
    rw [Fintype.card_fun, Fintype.card_fun, Fintype.card_fin, Fintype.card_fin,
      Fintype.card_fin]
    exact Nat.pow_lt_pow_right (by norm_num) (by norm_num)
  obtain ⟨v, v', hne, heq⟩ := Fintype.exists_ne_map_eq_of_card_lt digestFn hlt
  have hdig : sha256Bytes (byteListOf v) = sha256Bytes (byteListOf v') := by
    apply List.ext_getElem
    · rw [sha256Bytes_length, sha256Bytes_length]
    · intro n h1 h2
      have hn : n < 32 := by rw [sha256Bytes_length] at h1; exact h1
      have hfn := congrFun heq ⟨n, hn⟩
      simp only [digestFn, Fin.mk.injEq] at hfn
      have e1 : (sha256Bytes (byteListOf v)).getD n 0 = (sha256Bytes (byteListOf v))[n] :=
        List.getD_eq_getElem _ _ h1
      have e2 : (sha256Bytes (byteListOf v')).getD n 0 = (sha256Bytes (byteListOf v'))[n] :=
        List.getD_eq_getElem _ _ h2
      have m1 : (sha256Bytes (byteListOf v))[n] % 256 = (sha256Bytes (byteListOf v))[n] :=
        Nat.mod_eq_of_lt (sha256Bytes_mem_lt _ _ (List.getElem_mem h1))
      have m2 : (sha256Bytes (byteListOf v'))[n] % 256 = (sha256Bytes (byteListOf v'))[n] :=
        Nat.mod_eq_of_lt (sha256Bytes_mem_lt _ _ (List.getElem_mem h2))
      rw [e1, e2, m1, m2] at hfn
      exact hfn
  refine ⟨byteListOf v, byteListOf v', fun hEq => hne (byteListOf_injective hEq), ?_⟩
  show "sha256:".toList ++ hexEncode (sha256Bytes (byteListOf v)) = _
  rw [hdig]
  rfl

/-- Witness for C2: with a single-loopback default file, the resolved path
is the alternate one. -/
theorem path_alternate_iff_witness :
    (pathCall (fun _ => some "nameserver 127.0.0.53".toList) initState).1 = alternatePath ∨
    (pathCall (fun _ => some "nameserver 127.0.0.53".toList) initState).1 = defaultPath :=
  (path_alternate_iff (fun _ => some "nameserver 127.0.0.53".toList)).2

/-- Witness for C7 at a concrete unreadable file. -/
theorem read_error_xor_full_snapshot_witness :
    (∃ e, GetSpecific (fun _ => none) defaultPath = Except.error e ∧
      ∀ f, GetSpecific (fun _ => none) defaultPath ≠ Except.ok f) ∨
    (∃ text f, (fun _ => none : FS) defaultPath = some text ∧
      GetSpecific (fun _ => none) defaultPath = Except.ok f ∧
      f.Content = utf8Encode text ∧ f.Hash = hashData (utf8Encode text) ∧
      getNameservers text = Except.ok f.Nameservers ∧
      f.Options = getOptions text) :=
  read_error_xor_full_snapshot (fun _ => none) defaultPath

end Resolvconf
